import Mathlib

/-!
Verification of the core of `hotspot-analyzer` (a Rust tool that ranks files
of a git repository by a "hotspot" score) against its natural-language
specification.  Every definition below is a shallow embedding of a function
or data type of the source tree:

* `src/analyzer/git.rs`   — glob compilation (`glob_to_regex`), path filtering
  (`should_include_file`), the commit walk (`get_commits_since`,
  `get_changed_files`) and repository opening (`GitRepository::open`).
* `src/analyzer/mod.rs`   — the aggregation loop of `HotspotAnalyzer::analyze`
  and the score computation `FileStats::into_metrics`.
* `src/analyzer/error.rs` — the `AnalyzerError` enum.

Machine integers (`u32`, `usize`) are modelled as `Nat` (none of the verified
code can overflow them on the inputs considered, and the source performs no
wrapping arithmetic); `f64` arithmetic is modelled exactly, by `ℚ` where the
source only uses field operations and by `ℝ` where it takes a square root.
-/

/-! ## Regex fragment

`glob_to_regex` (git.rs) emits regexes built from only these constructs:
the anchors `^`/`$`, escaped literals `\c`, plain literal characters,
`.` (from `?`), `.*`, `[^/]*` and `/`.  We model a compiled `regex::Regex`
as the parsed sequence of such items and `Regex::is_match` as anchored
matching of the whole string (the emitted regexes are always anchored on
both ends, so full-string matching coincides with `is_match`). -/

/-- One atomic regex unit emitted by `glob_to_regex`. -/
inductive RAtom where
  | lit (c : Char)
  | dot
  | nonSlash
deriving DecidableEq

/-- An atom, either to be matched once or under a Kleene star. -/
inductive RItem where
  | once (a : RAtom)
  | star (a : RAtom)
deriving DecidableEq

def atomMatches : RAtom → Char → Bool
  | .lit c, x => c == x
  | .dot, _ => true
  | .nonSlash, x => x != '/'

/-- Backtracking matcher for a sequence of regex items, with explicit fuel so
that it is structurally recursive (kernel-reducible).  Every recursive call
consumes one unit of fuel and strictly decreases `rs.length + s.length`, and
the fuel-exhausted arm requires a non-empty `rs`, so with initial fuel
`rs.length + s.length` that arm is unreachable: `rmatch` below implements
exactly the usual backtracking semantics. -/
def rmatchF : Nat → List RItem → List Char → Bool
  | _, [], s => s.isEmpty
  | 0, _ :: _, _ => false
  | fuel + 1, .once a :: rs, s =>
      match s with
      | [] => false
      | x :: xs => atomMatches a x && rmatchF fuel rs xs
  | fuel + 1, .star a :: rs, s =>
      rmatchF fuel rs s ||
        (match s with
         | [] => false
         | x :: xs => atomMatches a x && rmatchF fuel (.star a :: rs) xs)

/-- Anchored match of an item sequence against a whole character list. -/
def rmatch (rs : List RItem) (s : List Char) : Bool :=
  rmatchF (rs.length + s.length) rs s

/-- Parse the regex strings produced by `glob_to_regex` into item sequences.
`^` and `$` only occur as the two anchors (a literal `^`/`$` in a glob is
emitted escaped), and anchoring is built into `rmatch`, so they parse to
nothing. -/
def parseRegex : List Char → List RItem
  | [] => []
  | '^' :: rest => parseRegex rest
  | '$' :: rest => parseRegex rest
  | '\\' :: c :: rest => .once (.lit c) :: parseRegex rest
  | ['\\'] => []
  | '[' :: '^' :: '/' :: ']' :: '*' :: rest => .star .nonSlash :: parseRegex rest
  | '[' :: '^' :: '/' :: ']' :: rest => .once .nonSlash :: parseRegex rest
  | '.' :: '*' :: rest => .star .dot :: parseRegex rest
  | '.' :: rest => .once .dot :: parseRegex rest
  | c :: rest => .once (.lit c) :: parseRegex rest

/-- `Regex::is_match` for the (always anchored) regexes of this program. -/
def regexIsMatch (r : List RItem) (s : String) : Bool :=
  rmatch r s.toList

/-- The characters escaped by `regex::escape` (the `regex-syntax` crate's
meta characters). -/
def isRegexMetaChar (c : Char) : Bool :=
  c == '\\' || c == '.' || c == '+' || c == '*' || c == '?' || c == '(' ||
  c == ')' || c == '|' || c == '[' || c == ']' || c == '{' || c == '}' ||
  c == '^' || c == '$' || c == '#' || c == '&' || c == '-' || c == '~'

/-- `regex::escape` applied to a single character. -/
def rustRegexEscapeChar (c : Char) : String :=
  if isRegexMetaChar c then String.singleton '\\' ++ String.singleton c
  else String.singleton c

/-- The character loop of `glob_to_regex` (git.rs).  `Char.isAlphanum`
models Rust's `char::is_alphanumeric` (the sources and tests only use ASCII;
for any character the two possible translations — pushed plain or pushed
escaped — parse to the same literal item, so `globMatch` is unaffected). -/
def globToRegexCore : List Char → String
  | [] => ""
  | '*' :: '*' :: '/' :: rest => ".*/" ++ globToRegexCore rest
  | '*' :: '*' :: rest => ".*" ++ globToRegexCore rest
  | '*' :: rest => "[^/]*" ++ globToRegexCore rest
  | '?' :: rest => "." ++ globToRegexCore rest
  | '.' :: rest => "\\." ++ globToRegexCore rest
  | '/' :: rest => "/" ++ globToRegexCore rest
  | c :: rest =>
      (if c.isAlphanum then String.singleton c else rustRegexEscapeChar c) ++
        globToRegexCore rest

/-- `glob_to_regex` (git.rs, lines 191–222). -/
def glob_to_regex (pattern : String) : String :=
  "^" ++ globToRegexCore pattern.toList ++ "$"

/-- Compile a glob with `glob_to_regex` and test a path with the matcher,
as `GitRepository::open` + `Regex::is_match` do. -/
def globMatch (pattern path : String) : Bool :=
  regexIsMatch (parseRegex (glob_to_regex pattern).toList) path


/-! ## Errors (`src/analyzer/error.rs`)

`AnalyzerError`; the `git2::Error` payload of `GitError` is modelled by its
message string. -/

inductive AnalyzerError where
  | GitError (msg : String)
  | InvalidRepository
  | InvalidPattern (msg : String)
  | AnalysisError (msg : String)
  | TimestampError (msg : String)
  | MetricsError (msg : String)
deriving DecidableEq

/-! ## The repository walk (`src/analyzer/git.rs`)

libgit2 state is modelled explicitly: a tree is a finite list of
(path, blob id) entries, and a commit of the revwalk stream is a `RawCommit`
recording what the libgit2 calls made by the walker would return for it:
its timestamp, parent count, optional author name (`commit.author().name()`),
the result of `commit.tree()`, and the nested result of
`commit.parent(0)` / `parent.tree()`.  Fallible libgit2 calls are `Except`
with the `git2::Error` message as the error. -/

/-- A git tree, as the finite map from changed-file path to blob identity
that `diff_tree_to_tree` compares. -/
abbrev GitTree := List (String × Nat)

def treeLookup (t : GitTree) (p : String) : Option Nat :=
  (t.find? (fun e => e.1 == p)).map Prod.snd

/-- `diff_tree_to_tree(parent, tree)` restricted to what `get_changed_files`
reads from it: the `new_file` paths of the deltas, i.e. the entries of `t`
that are absent from or changed relative to `parent` (deletions and renames
are not needed by any claim and are not modelled). -/
def diffTrees (parent : Option GitTree) (t : GitTree) : List String :=
  (t.filter (fun e => parent.bind (fun pt => treeLookup pt e.1) != some e.2)).map Prod.fst

deriving instance DecidableEq for Except

/-- One commit of the revwalk stream together with the answers the
repository would give for it. -/
structure RawCommit where
  time : Int
  parent_count : Nat
  author_name : Option String
  tree : Except String GitTree
  parent0_tree : Except String (Except String GitTree)
deriving DecidableEq

/-- `CommitInfo` (git.rs): author plus changed, filtered files. -/
structure CommitInfo where
  author : String
  files : List String
deriving DecidableEq

/-- `GitRepository` (git.rs) minus the libgit2 handle: the compiled include
and exclude patterns and the merge flag. -/
structure GitRepository where
  include_patterns : List (List RItem)
  exclude_patterns : List (List RItem)
  include_merge_commits : Bool
deriving DecidableEq

/-- `GitRepository::should_include_file` (git.rs, lines 92–108). -/
def GitRepository.should_include_file (g : GitRepository) (file_path : String) : Bool :=
  if g.exclude_patterns.any (fun p => regexIsMatch p file_path) then false
  else if g.include_patterns.isEmpty then true
  else g.include_patterns.any (fun p => regexIsMatch p file_path)

/-- `GitRepository::get_changed_files` (git.rs, lines 170–188):
`commit.tree()?` propagates its failure, while
`commit.parent(0).ok().and_then(|parent| parent.tree().ok())` turns any
failure into `None`, i.e. into a diff against the empty tree. -/
def GitRepository.get_changed_files (g : GitRepository) (c : RawCommit) :
    Except AnalyzerError (List String) :=
  match c.tree with
  | .error e => .error (.GitError e)
  | .ok tree =>
      let parent_tree : Option GitTree := c.parent0_tree.toOption.bind Except.toOption
      .ok (diffTrees parent_tree tree)

/-- `chrono::DateTime::MIN_UTC.timestamp()`: least seconds value accepted by
`DateTime::from_timestamp`. -/
def chronoMinTs : Int := -8334601228800

/-- `chrono::DateTime::MAX_UTC.timestamp()`: greatest seconds value accepted
by `DateTime::from_timestamp`. -/
def chronoMaxTs : Int := 8210266876799

/-- `chrono::DateTime::from_timestamp(secs, 0)`, with the resulting instant
identified with its epoch-second count (the walker only ever compares such
instants, and `since` is itself such an instant). -/
def fromTimestamp (secs : Int) : Option Int :=
  if chronoMinTs ≤ secs ∧ secs ≤ chronoMaxTs then some secs else none

/-- The body of the `get_commits_since` loop from the merge-commit check on
(everything after the since-cutoff `continue`). -/
def GitRepository.processCommitAfterCutoff (g : GitRepository) (c : RawCommit) :
    Except AnalyzerError (Option CommitInfo) :=
  if g.include_merge_commits = false ∧ 1 < c.parent_count then .ok none
  else
    let author := c.author_name.getD "unknown"
    match g.get_changed_files c with
    | .error e => .error e
    | .ok changed =>
        let files := changed.filter (fun f => g.should_include_file f)
        if files.isEmpty then .ok none
        else .ok (some { author := author, files := files })

/-- The full body of the `get_commits_since` loop for one commit
(git.rs, lines 134–164): timestamp conversion (its failure is the
`AnalysisError "Invalid commit timestamp"`), the since-cutoff, then
`processCommitAfterCutoff`.  `.ok none` is a `continue` / nothing pushed. -/
def GitRepository.processCommit (g : GitRepository) (since : Int) (c : RawCommit) :
    Except AnalyzerError (Option CommitInfo) :=
  match fromTimestamp c.time with
  | none => .error (.AnalysisError "Invalid commit timestamp")
  | some commit_time =>
      if commit_time < since then .ok none
      else g.processCommitAfterCutoff c

/-- `GitRepository::get_commits_since` (git.rs, lines 125–168) over an
explicit revwalk stream: the loop accumulates the records of the accepted
commits in order and aborts on the first error. -/
def GitRepository.get_commits_since (g : GitRepository) (since : Int) :
    List RawCommit → Except AnalyzerError (List CommitInfo)
  | [] => .ok []
  | c :: cs =>
      match g.processCommit since c with
      | .error e => .error e
      | .ok none => g.get_commits_since since cs
      | .ok (some ci) =>
          match g.get_commits_since since cs with
          | .error e => .error e
          | .ok rest => .ok (ci :: rest)

/-- `GitRepository::open` (git.rs, lines 55–81).  The outcome of
`Repository::open(path)` is passed in explicitly (the filesystem is outside
the model); its failure is propagated by `?` through the
`impl From<git2::Error>` of `AnalyzerError`, i.e. as `GitError`.  Pattern
compilation `Regex::new(&glob_to_regex(p))` cannot fail on the output of
`glob_to_regex` (every emitted construct is valid regex syntax), so it is
modelled by the total compiler; the `InvalidPattern` arm is unreachable. -/
def GitRepository.openRepo (repoResult : Except String Unit)
    (include_patterns exclude_patterns : List String)
    (include_merge_commits : Bool) : Except AnalyzerError GitRepository :=
  match repoResult with
  | .error e => .error (.GitError e)
  | .ok _ =>
      .ok { include_patterns :=
              include_patterns.map (fun p => parseRegex (glob_to_regex p).toList),
            exclude_patterns :=
              exclude_patterns.map (fun p => parseRegex (glob_to_regex p).toList),
            include_merge_commits := include_merge_commits }

/-- `HotspotAnalyzer` (mod.rs). -/
structure HotspotAnalyzer where
  repo : GitRepository
  time_window_days : Int
deriving DecidableEq

/-- `HotspotAnalyzer::new` (mod.rs, lines 59–71): opens the repository and
stores the window. -/
def HotspotAnalyzer.new (repoResult : Except String Unit) (time_window_days : Int)
    (include_patterns exclude_patterns : List String) (include_merges : Bool) :
    Except AnalyzerError HotspotAnalyzer :=
  match GitRepository.openRepo repoResult include_patterns exclude_patterns include_merges with
  | .error e => .error e
  | .ok repo => .ok { repo := repo, time_window_days := time_window_days }

/-! ## Aggregation (`HotspotAnalyzer::analyze`, mod.rs lines 86–103)

`HashMap<String, FileStats>` with `entry(..).or_default()` behaves as a total
function from paths to `FileStats` that is `FileStats::default()` off the
touched keys, and is modelled as such.  The inner
`HashMap<String, u32>` of per-author commit counts is modelled as its entry
list (`bumpAuthor` is `*map.entry(a).or_insert(0) += 1`), and the
`HashSet<String>` of authors as a `Finset`. -/

/-- `FileStats` (mod.rs, lines 113–118). -/
structure FileStats where
  revisions : Nat
  authors : Finset String
  author_commits : List (String × Nat)
deriving DecidableEq

/-- `FileStats::default()`. -/
def FileStats.default : FileStats :=
  { revisions := 0, authors := ∅, author_commits := [] }

/-- `*stats.author_commits.entry(author).or_insert(0) += 1`. -/
def bumpAuthor (m : List (String × Nat)) (a : String) : List (String × Nat) :=
  if m.any (fun e => e.1 == a) then
    m.map (fun e => if e.1 == a then (e.1, e.2 + 1) else e)
  else m ++ [(a, 1)]

/-- The three mutations the analyze loop performs on one file's stats for
one commit: `revisions += 1`, `authors.insert(author)`,
`*author_commits.entry(author).or_insert(0) += 1`. -/
def FileStats.applyCommit (s : FileStats) (author : String) : FileStats :=
  { revisions := s.revisions + 1,
    authors := insert author s.authors,
    author_commits := bumpAuthor s.author_commits author }

abbrev PathMap := String → FileStats

/-- Pointwise update of the path-to-stats map. -/
def mapUpdate (m : PathMap) (k : String) (v : FileStats) : PathMap :=
  fun k' => if k' == k then v else m k'

/-- One iteration of the inner `for file_path in commit.files` loop. -/
def stepFile (author : String) (m : PathMap) (f : String) : PathMap :=
  mapUpdate m f ((m f).applyCommit author)

/-- Folding one commit record into the map (the inner loop). -/
def foldCommit (m : PathMap) (c : CommitInfo) : PathMap :=
  c.files.foldl (stepFile c.author) m

/-- The aggregation of `HotspotAnalyzer::analyze`: folding the commit
records into the path-to-stats map, starting from the empty map. -/
def analyzeFold (commits : List CommitInfo) : PathMap :=
  commits.foldl foldCommit (fun _ => FileStats.default)

/-! ## Score computation (`FileStats::into_metrics`, mod.rs lines 130–153)

The `f64` arithmetic of `into_metrics` is modelled exactly: the percentage
and distribution use only field operations and are modelled over `ℚ`; the
hotspot score takes a square root and is modelled over `ℝ`. -/

/-- `let total_commits: u32 = self.author_commits.values().sum()`. -/
def FileStats.totalCommits (s : FileStats) : Nat :=
  (s.author_commits.map Prod.snd).sum

/-- `self.author_commits.values().max().unwrap_or(&0)`. -/
def FileStats.maxAuthorCommits (s : FileStats) : Nat :=
  (s.author_commits.map Prod.snd).foldr max 0

/-- `(*max_author_commits as f64 / total_commits as f64) * 100.0` when
`total_commits > 0`, else `0.0`. -/
def FileStats.mainContributorPercentage (s : FileStats) : ℚ :=
  if 0 < s.totalCommits then
    ((s.maxAuthorCommits : ℚ) / (s.totalCommits : ℚ)) * 100
  else 0

/-- `1.0 - (percentage / 100.0)` when `total_commits > 0`, else `0.0`. -/
def FileStats.knowledgeDistribution (s : FileStats) : ℚ :=
  if 0 < s.totalCommits then 1 - s.mainContributorPercentage / 100
  else 0

/-- `let complexity_factor = (self.authors.len() as f64).sqrt()`. -/
noncomputable def FileStats.complexityFactor (s : FileStats) : ℝ :=
  Real.sqrt (s.authors.card : ℝ)

/-- `self.revisions as f64 * complexity_factor * knowledge_distribution`. -/
noncomputable def FileStats.hotspotScore (s : FileStats) : ℝ :=
  (s.revisions : ℝ) * s.complexityFactor * (s.knowledgeDistribution : ℝ)

/-- `FileMetrics` (metrics.rs), at full internal precision (the 3-decimal
rounding of the source happens at serialization only). -/
structure FileMetrics where
  path : String
  hotspot_score : ℝ
  revisions : Nat
  author_count : Nat
  main_contributor_percentage : ℚ
  knowledge_distribution : ℚ

/-- `FileStats::into_metrics` (mod.rs, lines 130–153). -/
noncomputable def FileStats.into_metrics (s : FileStats) (path : String) : FileMetrics :=
  { path := path,
    hotspot_score := s.hotspotScore,
    revisions := s.revisions,
    author_count := s.authors.card,
    main_contributor_percentage := s.mainContributorPercentage,
    knowledge_distribution := s.knowledgeDistribution }

/-- The per-author commit counter of one author, as read off the entry list
of the `author_commits` map. -/
def commitCountFor (m : List (String × Nat)) (a : String) : Nat :=
  ((m.filter (fun e => e.1 == a)).map Prod.snd).sum

/-! ## Properties and sample data used by the verification -/

/-- The state invariant of a reachable `FileStats` accumulator: the commit
map has no duplicate authors, the author set is exactly its key set, every
counter is positive, and the revision count is the sum of the counters. -/
def WfStats (s : FileStats) : Prop :=
  (s.author_commits.map Prod.fst).Nodup ∧
  s.authors = (s.author_commits.map Prod.fst).toFinset ∧
  (∀ e ∈ s.author_commits, 0 < e.2) ∧
  s.revisions = (s.author_commits.map Prod.snd).sum

/-- Observational equivalence of two `FileStats`: equal up to the (hash-map)
entry order of the per-author counters.  Every quantity `into_metrics` reads
is invariant under it. -/
def StatsEquiv (s t : FileStats) : Prop :=
  s.revisions = t.revisions ∧ s.authors = t.authors ∧
  s.author_commits.Perm t.author_commits

/-- The shape of a `FileStats` all of whose commits came from the single
author `a`. -/
def soleAuthorShape (a : String) (s : FileStats) : Prop :=
  s.authors ⊆ {a} ∧
  s.author_commits = (if s.revisions = 0 then [] else [(a, s.revisions)])

/-- The effect of one commit record on one path's stats: the per-commit
mutation applied once per occurrence of the path in the record's file
list. -/
def perStep (p : String) (s : FileStats) (c : CommitInfo) : FileStats :=
  (fun st => st.applyCommit c.author)^[c.files.count p] s

/-- A repository model with no patterns and merges excluded. -/
def repoEmpty : GitRepository :=
  { include_patterns := [], exclude_patterns := [], include_merge_commits := false }

/-- A commit whose first parent's tree is unreadable but whose own tree is
fine. -/
def c4Commit : RawCommit :=
  { time := 0, parent_count := 1, author_name := some "alice",
    tree := .ok [("f.rs", 1)], parent0_tree := .error "corrupt parent" }

/-- A commit whose own tree is unreadable. -/
def cBadTree : RawCommit :=
  { time := 0, parent_count := 0, author_name := some "alice",
    tree := .error "corrupt tree", parent0_tree := .error "no parent" }

/-- An ordinary commit with timestamp 5 and no parent. -/
def c7Commit : RawCommit :=
  { time := 5, parent_count := 0, author_name := some "alice",
    tree := .ok [("f.rs", 1)], parent0_tree := .error "no parent" }

/-- An authorless commit (name unavailable). -/
def cNoAuthor : RawCommit :=
  { time := 0, parent_count := 0, author_name := none,
    tree := .ok [("f.rs", 1)], parent0_tree := .error "no parent" }

/-- A record whose file list (hypothetically) repeats one path. -/
def dupCommit : CommitInfo := { author := "alice", files := ["a.rs", "a.rs"] }

/-- Sample records for the concrete instances. -/
def ciA : CommitInfo := { author := "alice", files := ["a.rs"] }

def ciB : CommitInfo := { author := "bob", files := ["a.rs", "b.rs"] }

def ciU1 : CommitInfo := { author := "unknown", files := ["f.rs"] }

def ciU2 : CommitInfo := { author := "unknown", files := ["f.rs", "g.rs"] }

/-- A single-author stats value: 5 revisions, all by alice. -/
def statsSingle : FileStats :=
  { revisions := 5, authors := {"alice"}, author_commits := [("alice", 5)] }

/-- A two-author stats value: alice 2 commits, bob 1, three revisions. -/
def statsTwo : FileStats :=
  { revisions := 3, authors := {"alice", "bob"},
    author_commits := [("alice", 2), ("bob", 1)] }

/-! ## Helper lemmas -/

lemma rmatchF_once_nil (f : Nat) (a : RAtom) (rs : List RItem) :
    rmatchF f (.once a :: rs) [] = false := by
  cases f <;> simp [rmatchF]

/-- Any string matched by a regex of the form `.*/ …` contains a slash. -/
lemma slash_mem_of_rmatchF (f : Nat) (rs : List RItem) :
    ∀ s : List Char,
      rmatchF f (.star .dot :: .once (.lit '/') :: rs) s = true → '/' ∈ s := by
  induction f with
  | zero => intro s h; simp [rmatchF] at h
  | succ f ih =>
      intro s h
      simp only [rmatchF, Bool.or_eq_true] at h
      rcases h with h | h
      · cases s with
        | nil => rw [rmatchF_once_nil] at h; exact absurd h (by simp)
        | cons x xs =>
            cases f with
            | zero => simp [rmatchF] at h
            | succ f' =>
                simp only [rmatchF, Bool.and_eq_true, atomMatches, beq_iff_eq] at h
                exact h.1 ▸ List.mem_cons_self _ _
      · cases s with
        | nil => simp at h
        | cons x xs =>
            simp only [Bool.and_eq_true] at h
            exact List.mem_cons_of_mem _ (ih xs h.2)

/-- The compiled form of a glob with recursive prefix: `^.*/ …$`. -/
lemma parse_doubleStarSlash (rest : String) :
    parseRegex (glob_to_regex ("**/" ++ rest)).toList
      = .star .dot :: .once (.lit '/')
          :: parseRegex ((globToRegexCore rest.toList).toList ++ ['$']) := rfl

/-! ## C1 -/

/-- Claim C1 is false on the code: `glob_to_regex "**/*.js"` compiles `**/`
to the regex `.*/` whose slash is mandatory, so the top-level path `x.js`
is not matched. -/
theorem doubleStarSlash_rejects_top_level :
    ¬ (globMatch "**/*.js" "x.js" = true) := by decide

/-- Claim C1, amended: a pattern with the recursive prefix `**/` only
matches paths with at least one leading segment (every match contains a
slash); `**/*.js` matches the nested `a/x.js` and `a/b/x.js` but not the
top-level `x.js`. -/
theorem doubleStarSlash_requires_segment :
    (∀ rest path : String,
        globMatch ("**/" ++ rest) path = true → '/' ∈ path.toList) ∧
    globMatch "**/*.js" "a/x.js" = true ∧
    globMatch "**/*.js" "a/b/x.js" = true ∧
    globMatch "**/*.js" "x.js" = false := by
  refine ⟨?_, by decide, by decide, by decide⟩
  intro rest path h
  unfold globMatch regexIsMatch rmatch at h
  rw [parse_doubleStarSlash] at h
  exact slash_mem_of_rmatchF _ _ _ h

/-- Witness for the amended C1 at a concrete input. -/
theorem doubleStarSlash_requires_segment_witness :
    globMatch ("**/" ++ "*.js") "a/x.js" = true ∧ '/' ∈ "a/x.js".toList :=
  ⟨by decide, doubleStarSlash_requires_segment.1 "*.js" "a/x.js" (by decide)⟩

/-! ## C3 -/

/-- Claim C3: `should_include_file` is true exactly when no exclude pattern
matches and (the include set is empty or some include pattern matches); in
particular any exclude match forces `false` regardless of the includes, and
an empty include set matches everything not excluded. -/
theorem should_include_file_spec (g : GitRepository) (path : String) :
    g.should_include_file path = true ↔
      ((∀ p ∈ g.exclude_patterns, regexIsMatch p path = false) ∧
       (g.include_patterns = [] ∨
        ∃ p ∈ g.include_patterns, regexIsMatch p path = true)) := by
  unfold GitRepository.should_include_file
  by_cases hex : g.exclude_patterns.any (fun p => regexIsMatch p path) = true
  · rw [if_pos hex]
    simp only [List.any_eq_true] at hex
    obtain ⟨q, hq, hqm⟩ := hex
    constructor
    · intro h; cases h
    · rintro ⟨hall, -⟩
      have := hall q hq
      rw [this] at hqm; cases hqm
  · rw [if_neg hex]
    have hub : ∀ p ∈ g.exclude_patterns, regexIsMatch p path = false := by
      intro p hp
      cases hv : regexIsMatch p path
      · rfl
      · exact absurd (List.any_eq_true.mpr ⟨p, hp, hv⟩) hex
    by_cases hinc : g.include_patterns.isEmpty = true
    · rw [if_pos hinc]
      simp only [true_iff]
      exact ⟨hub, Or.inl (List.isEmpty_iff.mp hinc)⟩
    · rw [if_neg hinc]
      rw [List.any_eq_true]
      constructor
      · rintro ⟨p, hp, hpm⟩; exact ⟨hub, Or.inr ⟨p, hp, hpm⟩⟩
      · rintro ⟨-, hor⟩
        rcases hor with hnil | ⟨p, hp, hpm⟩
        · exact absurd (by rw [hnil]; rfl) hinc
        · exact ⟨p, hp, hpm⟩

/-! ## C5 -/

/-- Claim C5 is false on the code: opening an invalid repository path
surfaces the wrapped `git2` error as the `GitError` variant (as the source's
own `test_git_repository_open_invalid_path` asserts), not as
`InvalidRepository`. -/
theorem openRepo_invalid_path_giterror :
    GitRepository.openRepo (.error "could not find repository") [] [] false
        = .error (.GitError "could not find repository") ∧
    GitRepository.openRepo (.error "could not find repository") [] [] false
        ≠ .error .InvalidRepository := ⟨rfl, by decide⟩

/-- Claim C5, amended: when the underlying repository open fails, both
`GitRepository::open` and `HotspotAnalyzer::new` fail immediately with the
`GitError` variant wrapping that failure — a variant distinct from
`InvalidRepository`, which `open` never produces. -/
theorem openRepo_error_variant (e : String) (days : Int)
    (incs excs : List String) (merges : Bool) :
    GitRepository.openRepo (.error e) incs excs merges = .error (.GitError e) ∧
    HotspotAnalyzer.new (.error e) days incs excs merges = .error (.GitError e) ∧
    AnalyzerError.GitError e ≠ AnalyzerError.InvalidRepository :=
  ⟨rfl, rfl, fun h => AnalyzerError.noConfusion h⟩

/-! ## C4 -/

/-- A commit is examined by the body of the walk loop (valid timestamp, in
window, not merge-skipped) and its own tree is unreadable. -/
def acceptedWithBadTree (g : GitRepository) (since : Int) (c : RawCommit) : Prop :=
  (∃ t, fromTimestamp c.time = some t ∧ ¬ t < since) ∧
  ¬ (g.include_merge_commits = false ∧ 1 < c.parent_count) ∧
  (∃ e, c.tree = .error e)

lemma processCommit_error_of_badTree (g : GitRepository) (since : Int)
    (c : RawCommit) (h : acceptedWithBadTree g since c) :
    ∃ e', g.processCommit since c = .error e' := by
  obtain ⟨⟨t, hts, hlt⟩, hmerge, e, htree⟩ := h
  refine ⟨.GitError e, ?_⟩
  simp only [GitRepository.processCommit, hts, if_neg hlt,
    GitRepository.processCommitAfterCutoff, if_neg hmerge,
    GitRepository.get_changed_files, htree]

lemma get_commits_since_error_of_mem (g : GitRepository) (since : Int) :
    ∀ l : List RawCommit, (∃ c ∈ l, acceptedWithBadTree g since c) →
      ∃ e', g.get_commits_since since l = .error e' := by
  intro l
  induction l with
  | nil => rintro ⟨c, hc, -⟩; cases hc
  | cons c cs ih =>
      rintro ⟨c', hc', hbad⟩
      rcases List.mem_cons.mp hc' with rfl | hmem
      · obtain ⟨e', hpc⟩ := processCommit_error_of_badTree g since c' hbad
        exact ⟨e', by simp [GitRepository.get_commits_since, hpc]⟩
      · cases hpc : g.processCommit since c with
        | error e2 => exact ⟨e2, by simp [GitRepository.get_commits_since, hpc]⟩
        | ok o =>
            obtain ⟨e', hrec⟩ := ih ⟨c', hmem, hbad⟩
            cases o with
            | none => exact ⟨e', by simp [GitRepository.get_commits_since, hpc, hrec]⟩
            | some ci => exact ⟨e', by simp [GitRepository.get_commits_since, hpc, hrec]⟩

/-- Claim C4 is false on the code: a commit whose first parent's tree is
unreadable is silently processed — `get_changed_files` succeeds by diffing
against the empty tree, and the walk completes with the commit counted
rather than aborting. -/
theorem unreadable_parent_tree_processed :
    repoEmpty.get_changed_files c4Commit = .ok ["f.rs"] ∧
    repoEmpty.get_commits_since 0 [c4Commit]
        = .ok [{ author := "alice", files := ["f.rs"] }] := by
  exact ⟨rfl, by decide⟩

/-- Claim C4, amended: a failure to read the commit's own tree is surfaced
as a `GitError` and any such commit inside the window aborts the entire walk
with an error (no partial results); but a failure to read the first parent
or the first parent's tree does not abort — the commit is silently diffed
against the empty tree, exactly as a parentless root commit is. -/
theorem walk_error_policy :
    (∀ (g : GitRepository) (c : RawCommit) (e : String),
        c.tree = .error e → g.get_changed_files c = .error (.GitError e)) ∧
    (∀ (g : GitRepository) (c : RawCommit) (t : GitTree),
        c.tree = .ok t →
        g.get_changed_files c
            = .ok (diffTrees (c.parent0_tree.toOption.bind Except.toOption) t)) ∧
    (∀ (g : GitRepository) (c : RawCommit) (t : GitTree) (e : String),
        c.tree = .ok t → c.parent0_tree = .error e →
        g.get_changed_files c = .ok (diffTrees none t)) ∧
    (∀ (g : GitRepository) (since : Int) (l : List RawCommit),
        (∃ c ∈ l, acceptedWithBadTree g since c) →
        ∃ e', g.get_commits_since since l = .error e') := by
  refine ⟨?_, ?_, ?_, fun g since l => get_commits_since_error_of_mem g since l⟩
  · intro g c e htree
    unfold GitRepository.get_changed_files
    rw [htree]
  · intro g c t htree
    unfold GitRepository.get_changed_files
    rw [htree]
  · intro g c t e htree hpar
    unfold GitRepository.get_changed_files
    rw [htree, hpar]
    rfl

/-- Witness for the amended C4 at concrete inputs: an unreadable own tree
aborts the walk; an unreadable parent tree is diffed against the empty
tree. -/
theorem walk_error_policy_witness :
    (cBadTree.tree = .error "corrupt tree" ∧
      repoEmpty.get_changed_files cBadTree = .error (.GitError "corrupt tree")) ∧
    (c4Commit.tree = .ok [("f.rs", 1)] ∧
      c4Commit.parent0_tree = .error "corrupt parent" ∧
      repoEmpty.get_changed_files c4Commit = .ok (diffTrees none [("f.rs", 1)])) ∧
    (∃ e', repoEmpty.get_commits_since 0 [cBadTree] = .error e') :=
  ⟨⟨rfl, walk_error_policy.1 repoEmpty cBadTree "corrupt tree" rfl⟩,
   ⟨rfl, rfl, walk_error_policy.2.2.1 repoEmpty c4Commit [("f.rs", 1)] "corrupt parent" rfl rfl⟩,
   walk_error_policy.2.2.2 repoEmpty 0 [cBadTree]
     ⟨cBadTree, List.mem_singleton.mpr rfl,
      ⟨0, by decide, by decide⟩, by decide, "corrupt tree", rfl⟩⟩

/-! ## C7 -/

/-- Claim C7: with a convertible timestamp `t`, the walk body skips the
commit (contributing nothing, with no error) exactly when `t` is strictly
before `since`; at `t = since` or later the cutoff is passed and processing
continues exactly as without a cutoff, and a strictly older commit is
dropped from the walk entirely. -/
theorem since_cutoff_inclusive (g : GitRepository) (since t : Int)
    (c : RawCommit) (h : fromTimestamp c.time = some t) :
    (t < since → g.processCommit since c = .ok none) ∧
    (¬ t < since → g.processCommit since c = g.processCommitAfterCutoff c) ∧
    (t < since → ∀ cs, g.get_commits_since since (c :: cs)
        = g.get_commits_since since cs) := by
  refine ⟨fun hlt => ?_, fun hge => ?_, fun hlt cs => ?_⟩
  · simp only [GitRepository.processCommit, h, if_pos hlt]
  · simp only [GitRepository.processCommit, h, if_neg hge]
  · have hpc : g.processCommit since c = .ok none := by
      simp only [GitRepository.processCommit, h, if_pos hlt]
    simp [GitRepository.get_commits_since, hpc]

/-- Witness for C7 at a concrete commit with timestamp 5: skipped for
`since = 10`, but included (processed past the cutoff) for `since = 5`. -/
theorem since_cutoff_inclusive_witness :
    fromTimestamp c7Commit.time = some 5 ∧
    repoEmpty.processCommit 10 c7Commit = .ok none ∧
    repoEmpty.processCommit 5 c7Commit = repoEmpty.processCommitAfterCutoff c7Commit :=
  ⟨by decide,
   (since_cutoff_inclusive repoEmpty 10 5 c7Commit (by decide)).1 (by decide),
   (since_cutoff_inclusive repoEmpty 5 5 c7Commit (by decide)).2.1 (by decide)⟩

/-! ## C2 -/

/-- Claim C2: with `totalCommits > 0`, `into_metrics` yields
`mainContributorPercentage = 100 * maxAuthorCommits / totalCommits`,
`knowledgeDistribution = 1 - mainContributorPercentage / 100` and
`hotspotScore = revisions * sqrt(authorCount) * knowledgeDistribution`;
with `totalCommits = 0` all three are `0`; and a stats value whose commit
map holds a single author with a positive count gets percentage `100`,
distribution `0` and hotspot score `0` whatever its revision count. -/
theorem into_metrics_formulas (s : FileStats) (path : String) :
    (0 < s.totalCommits →
      (s.into_metrics path).main_contributor_percentage
          = 100 * (s.maxAuthorCommits : ℚ) / (s.totalCommits : ℚ) ∧
      (s.into_metrics path).knowledge_distribution
          = 1 - (s.into_metrics path).main_contributor_percentage / 100 ∧
      (s.into_metrics path).hotspot_score
          = (s.revisions : ℝ) * Real.sqrt (s.authors.card : ℝ)
              * ((s.into_metrics path).knowledge_distribution : ℝ)) ∧
    (s.totalCommits = 0 →
      (s.into_metrics path).main_contributor_percentage = 0 ∧
      (s.into_metrics path).knowledge_distribution = 0 ∧
      (s.into_metrics path).hotspot_score = 0) ∧
    (∀ (a : String) (k : Nat), s.author_commits = [(a, k)] → 0 < k →
      (s.into_metrics path).main_contributor_percentage = 100 ∧
      (s.into_metrics path).knowledge_distribution = 0 ∧
      (s.into_metrics path).hotspot_score = 0) := by
  refine ⟨fun h => ⟨?_, ?_, ?_⟩, fun h0 => ?_, fun a k hs hk => ?_⟩
  · show s.mainContributorPercentage = _
    rw [FileStats.mainContributorPercentage, if_pos h]
    ring
  · show s.knowledgeDistribution = 1 - s.mainContributorPercentage / 100
    rw [FileStats.knowledgeDistribution, if_pos h]
  · show s.hotspotScore = _
    rw [FileStats.hotspotScore, FileStats.complexityFactor]
    rfl
  · have hm : s.mainContributorPercentage = 0 := by
      rw [FileStats.mainContributorPercentage, if_neg (by omega)]
    have hk : s.knowledgeDistribution = 0 := by
      rw [FileStats.knowledgeDistribution, if_neg (by omega)]
    refine ⟨hm, hk, ?_⟩
    show s.hotspotScore = 0
    rw [FileStats.hotspotScore, hk]
    push_cast
    ring
  · have htot : s.totalCommits = k := by
      simp [FileStats.totalCommits, hs]
    have hmax : s.maxAuthorCommits = k := by
      simp [FileStats.maxAuthorCommits, hs]
    have hpos : 0 < s.totalCommits := htot ▸ hk
    have hm : s.mainContributorPercentage = 100 := by
      rw [FileStats.mainContributorPercentage, if_pos hpos, htot, hmax]
      have : (k : ℚ) ≠ 0 := by exact_mod_cast Nat.pos_iff_ne_zero.mp hk
      field_simp
    have hd : s.knowledgeDistribution = 0 := by
      rw [FileStats.knowledgeDistribution, if_pos hpos, hm]
      norm_num
    refine ⟨hm, hd, ?_⟩
    show s.hotspotScore = 0
    rw [FileStats.hotspotScore, hd]
    push_cast
    ring

/-- Witness for C2 at concrete stats values: two authors with counts 2 and
1 (total 3), the empty stats (total 0), and a single-author stats with 5
commits. -/
theorem into_metrics_formulas_witness :
    (0 < statsTwo.totalCommits ∧
      (statsTwo.into_metrics "a.rs").main_contributor_percentage
          = 100 * (statsTwo.maxAuthorCommits : ℚ) / (statsTwo.totalCommits : ℚ)) ∧
    (FileStats.default.totalCommits = 0 ∧
      (FileStats.default.into_metrics "a.rs").hotspot_score = 0) ∧
    (statsSingle.author_commits = [("alice", 5)] ∧
      (statsSingle.into_metrics "a.rs").main_contributor_percentage = 100 ∧
      (statsSingle.into_metrics "a.rs").hotspot_score = 0) :=
  ⟨⟨by decide, ((into_metrics_formulas statsTwo "a.rs").1 (by decide)).1⟩,
   ⟨rfl, ((into_metrics_formulas FileStats.default "a.rs").2.1 rfl).2.2⟩,
   ⟨rfl,
    ((into_metrics_formulas statsSingle "a.rs").2.2 "alice" 5 rfl (by decide)).1,
    ((into_metrics_formulas statsSingle "a.rs").2.2 "alice" 5 rfl (by decide)).2.2⟩⟩

/-! ## Per-path characterization of the aggregation -/

lemma mapUpdate_apply_same (m : PathMap) (k : String) (v : FileStats) :
    mapUpdate m k v k = v := by
  simp [mapUpdate]

lemma mapUpdate_apply_ne (m : PathMap) (k k' : String) (v : FileStats)
    (h : k' ≠ k) : mapUpdate m k v k' = m k' := by
  simp [mapUpdate, h]

/-- One commit record acts on one path's stats as `applyCommit` iterated
once per occurrence of the path in the record's file list. -/
lemma foldFiles_apply (a : String) :
    ∀ (files : List String) (m : PathMap) (p : String),
      (files.foldl (stepFile a) m) p
        = (fun st => st.applyCommit a)^[files.count p] (m p) := by
  intro files
  induction files with
  | nil => intro m p; rfl
  | cons f fs ih =>
      intro m p
      rw [List.foldl_cons, ih]
      by_cases hfp : p = f
      · subst hfp
        rw [List.count_cons_self]
        rw [Function.iterate_succ_apply]
        congr 1
        exact mapUpdate_apply_same m p _
      · rw [List.count_cons_of_ne (by simpa using hfp)]
        congr 1
        exact mapUpdate_apply_ne m f p _ hfp

lemma foldCommit_apply (m : PathMap) (c : CommitInfo) (p : String) :
    foldCommit m c p = perStep p (m p) c :=
  foldFiles_apply c.author c.files m p

/-- The whole aggregation, viewed one path at a time. -/
lemma analyzeFold_apply (commits : List CommitInfo) (p : String) :
    analyzeFold commits p = commits.foldl (perStep p) FileStats.default := by
  suffices h : ∀ (l : List CommitInfo) (m : PathMap),
      (l.foldl foldCommit m) p = l.foldl (perStep p) (m p) by
    exact h commits _
  intro l
  induction l with
  | nil => intro m; rfl
  | cons c cs ih =>
      intro m
      rw [List.foldl_cons, List.foldl_cons, ih, foldCommit_apply]

lemma revisions_applyCommit (s : FileStats) (a : String) :
    (s.applyCommit a).revisions = s.revisions + 1 := rfl

lemma revisions_iterate (a : String) (n : Nat) (s : FileStats) :
    ((fun st => st.applyCommit a)^[n] s).revisions = s.revisions + n := by
  induction n with
  | zero => rfl
  | succ n ih =>
      rw [Function.iterate_succ_apply', revisions_applyCommit, ih]
      omega

/-! ## C6 -/

/-- Claim C6 is false on the code: the inner loop of `analyze` increments
once per list element, so a record whose file list (hypothetically) repeats
a path twice adds 2 to that path's revision count, not 1. -/
theorem duplicate_path_double_count :
    (analyzeFold [dupCommit] "a.rs").revisions = 2 ∧
    ¬ ((analyzeFold [dupCommit] "a.rs").revisions = 1) := by
  exact ⟨by decide, by decide⟩

lemma commitCountFor_append (l l' : List (String × Nat)) (a : String) :
    commitCountFor (l ++ l') a = commitCountFor l a + commitCountFor l' a := by
  simp [commitCountFor, List.filter_append]

lemma commitCountFor_cons (e : String × Nat) (l : List (String × Nat))
    (a : String) :
    commitCountFor (e :: l) a
      = (if e.1 == a then e.2 else 0) + commitCountFor l a := by
  simp only [commitCountFor, List.filter_cons]
  by_cases h : (e.1 == a) = true
  · rw [if_pos h, if_pos h]
    simp
  · rw [if_neg h, if_neg h]
    simp

lemma commitCountFor_bump_map (l : List (String × Nat)) (a : String) :
    commitCountFor (l.map (fun e => if e.1 == a then (e.1, e.2 + 1) else e)) a
      = commitCountFor l a + (l.map Prod.fst).count a := by
  induction l with
  | nil => rfl
  | cons e es ih =>
      simp only [List.map_cons]
      by_cases ha : e.1 = a
      · subst ha
        rw [if_pos (by simp)]
        rw [commitCountFor_cons, commitCountFor_cons, List.count_cons_self, ih]
        simp only [beq_self_eq_true, if_pos]
        omega
      · rw [if_neg (by simpa using ha)]
        rw [commitCountFor_cons, commitCountFor_cons,
          List.count_cons_of_ne (fun h => ha h.symm), ih]
        omega

lemma mem_keys_of_any (l : List (String × Nat)) (a : String)
    (h : l.any (fun e => e.1 == a) = true) : a ∈ l.map Prod.fst := by
  obtain ⟨e, he, hea⟩ := List.any_eq_true.mp h
  exact List.mem_map.mpr ⟨e, he, by simpa using hea⟩

/-- Under the no-duplicate-keys invariant, one `bumpAuthor` adds exactly 1
to the bumped author's counter. -/
lemma commitCountFor_bump (l : List (String × Nat)) (a : String)
    (hnd : (l.map Prod.fst).Nodup) :
    commitCountFor (bumpAuthor l a) a = commitCountFor l a + 1 := by
  unfold bumpAuthor
  by_cases h : l.any (fun e => e.1 == a) = true
  · rw [if_pos h, commitCountFor_bump_map]
    rw [List.count_eq_one_of_mem hnd (mem_keys_of_any l a h)]
  · rw [if_neg h, commitCountFor_append]
    simp [commitCountFor]

/-! ## The accumulator invariant -/

lemma map_fst_bump_map (l : List (String × Nat)) (a : String) :
    (l.map (fun e => if e.1 == a then (e.1, e.2 + 1) else e)).map Prod.fst
      = l.map Prod.fst := by
  induction l with
  | nil => rfl
  | cons e es ih =>
      simp only [List.map_cons, ih]
      congr 1
      by_cases h : (e.1 == a) = true
      · rw [if_pos h]
      · rw [if_neg h]

lemma sum_snd_bump_map (l : List (String × Nat)) (a : String) :
    ((l.map (fun e => if e.1 == a then (e.1, e.2 + 1) else e)).map Prod.snd).sum
      = (l.map Prod.snd).sum + (l.map Prod.fst).count a := by
  induction l with
  | nil => rfl
  | cons e es ih =>
      by_cases ha : e.1 = a
      · subst ha
        simp only [List.map_cons, if_pos (show (e.1 == e.1) = true by simp),
          List.sum_cons, List.count_cons_self, ih]
        omega
      · simp only [List.map_cons, List.sum_cons, ih]
        rw [List.count_cons_of_ne (fun h => ha h.symm),
          if_neg (show ¬ ((e.1 == a) = true) by simpa using ha)]
        omega

lemma any_key_of_mem (l : List (String × Nat)) (a : String)
    (h : a ∈ l.map Prod.fst) : l.any (fun e => e.1 == a) = true := by
  obtain ⟨e, he, rfl⟩ := List.mem_map.mp h
  exact List.any_eq_true.mpr ⟨e, he, by simp⟩

lemma wf_default : WfStats FileStats.default :=
  ⟨List.nodup_nil, rfl, fun e he => absurd he (List.not_mem_nil e), rfl⟩

lemma wf_applyCommit (s : FileStats) (a : String) (h : WfStats s) :
    WfStats (s.applyCommit a) := by
  obtain ⟨hnd, hauth, hpos, hrev⟩ := h
  by_cases hin : s.author_commits.any (fun e => e.1 == a) = true
  · have hb : (s.applyCommit a).author_commits
        = s.author_commits.map (fun e => if e.1 == a then (e.1, e.2 + 1) else e) := by
      show bumpAuthor s.author_commits a = _
      rw [bumpAuthor, if_pos hin]
    refine ⟨?_, ?_, ?_, ?_⟩
    · rw [hb, map_fst_bump_map]; exact hnd
    · show insert a s.authors = _
      rw [hb, map_fst_bump_map, hauth]
      exact Finset.insert_eq_self.mpr (List.mem_toFinset.mpr (mem_keys_of_any _ _ hin))
    · intro e' he'
      rw [hb] at he'
      obtain ⟨e, he, heq⟩ := List.mem_map.mp he'
      by_cases hc : (e.1 == a) = true
      · rw [← heq, if_pos hc]; exact Nat.succ_pos _
      · rw [← heq, if_neg hc]; exact hpos e he
    · show s.revisions + 1 = _
      rw [hb, sum_snd_bump_map,
        List.count_eq_one_of_mem hnd (mem_keys_of_any _ _ hin), hrev]
  · have hb : (s.applyCommit a).author_commits = s.author_commits ++ [(a, 1)] := by
      show bumpAuthor s.author_commits a = _
      rw [bumpAuthor, if_neg hin]
    have hnotmem : a ∉ s.author_commits.map Prod.fst :=
      fun hmem => hin (any_key_of_mem _ _ hmem)
    refine ⟨?_, ?_, ?_, ?_⟩
    · rw [hb, List.map_append]
      simp only [List.map_cons, List.map_nil]
      rw [List.nodup_append]
      exact ⟨hnd, List.nodup_singleton a,
        fun x hx hx' => hnotmem ((List.mem_singleton.mp hx') ▸ hx)⟩
    · show insert a s.authors = _
      rw [hb, List.map_append, List.toFinset_append]
      simp only [List.map_cons, List.map_nil, List.toFinset_cons, List.toFinset_nil]
      rw [hauth, Finset.insert_eq, Finset.union_comm]
      simp
    · intro e' he'
      rw [hb] at he'
      rcases List.mem_append.mp he' with he | he
      · exact hpos e' he
      · rcases List.mem_singleton.mp he with rfl
        exact Nat.one_pos
    · show s.revisions + 1 = _
      rw [hb, List.map_append, List.sum_append]
      simp only [List.map_cons, List.map_nil, List.sum_cons, List.sum_nil]
      omega

lemma wf_iterate (a : String) (n : Nat) (s : FileStats) (h : WfStats s) :
    WfStats ((fun st => st.applyCommit a)^[n] s) := by
  induction n with
  | zero => exact h
  | succ n ih => rw [Function.iterate_succ_apply']; exact wf_applyCommit _ a ih

lemma wf_perStep (p : String) (s : FileStats) (c : CommitInfo) (h : WfStats s) :
    WfStats (perStep p s c) :=
  wf_iterate c.author _ s h

lemma wf_foldl_perStep (p : String) :
    ∀ (l : List CommitInfo) (s : FileStats), WfStats s →
      WfStats (l.foldl (perStep p) s) := by
  intro l
  induction l with
  | nil => exact fun s h => h
  | cons c cs ih =>
      intro s h
      rw [List.foldl_cons]
      exact ih _ (wf_perStep p s c h)

/-- Every stats value reachable by the aggregation satisfies the
invariant. -/
lemma wf_analyzeFold (records : List CommitInfo) (p : String) :
    WfStats (analyzeFold records p) := by
  rw [analyzeFold_apply]
  exact wf_foldl_perStep p records _ wf_default

lemma analyzeFold_append_single (records : List CommitInfo) (c : CommitInfo)
    (p : String) :
    analyzeFold (records ++ [c]) p = perStep p (analyzeFold records p) c := by
  unfold analyzeFold
  rw [List.foldl_append]
  exact foldCommit_apply _ c p

/-- One `applyCommit a` adds exactly 1 to `a`'s counter (the bumped map
keeps no duplicate keys along the iteration), so `n` iterated applications
add exactly `n`. -/
lemma commitCountFor_iterate (a : String) (n : Nat) (s : FileStats)
    (h : WfStats s) :
    commitCountFor ((fun st => st.applyCommit a)^[n] s).author_commits a
      = commitCountFor s.author_commits a + n := by
  induction n with
  | zero => rfl
  | succ n ih =>
      rw [Function.iterate_succ_apply']
      have hwf := wf_iterate a n s h
      show commitCountFor
          (bumpAuthor ((fun st => st.applyCommit a)^[n] s).author_commits a) a = _
      rw [commitCountFor_bump _ _ hwf.1, ih]
      omega

/-- Claim C6, amended: folding one more record adds the number of
occurrences of the path in the record's file list both to the path's
revision count and to the record author's per-file counter — a
(hypothetical) duplicated path is counted once per occurrence (e.g. twice),
not once per commit; in particular when the path occurs exactly once (the
duplicate-free case) both grow by exactly 1. -/
theorem fold_increment_per_occurrence (records : List CommitInfo)
    (c : CommitInfo) (p : String) :
    ((analyzeFold (records ++ [c]) p).revisions
        = (analyzeFold records p).revisions + c.files.count p) ∧
    (commitCountFor (analyzeFold (records ++ [c]) p).author_commits c.author
        = commitCountFor (analyzeFold records p).author_commits c.author
            + c.files.count p) ∧
    (c.files.count p = 1 →
      (analyzeFold (records ++ [c]) p).revisions
          = (analyzeFold records p).revisions + 1 ∧
      commitCountFor (analyzeFold (records ++ [c]) p).author_commits c.author
          = commitCountFor (analyzeFold records p).author_commits c.author + 1) := by
  have hfold := analyzeFold_append_single records c p
  have hrev : (analyzeFold (records ++ [c]) p).revisions
      = (analyzeFold records p).revisions + c.files.count p := by
    rw [hfold]
    unfold perStep
    rw [revisions_iterate]
  have hcnt : commitCountFor (analyzeFold (records ++ [c]) p).author_commits c.author
      = commitCountFor (analyzeFold records p).author_commits c.author
          + c.files.count p := by
    rw [hfold]
    unfold perStep
    exact commitCountFor_iterate c.author _ _ (wf_analyzeFold records p)
  exact ⟨hrev, hcnt, fun h1 => ⟨by rw [hrev, h1], by rw [hcnt, h1]⟩⟩

/-- Witness for the amended C6: appending the record that lists `a.rs`
twice adds 2 to its revision count and to alice's counter, while appending
a record that lists it once adds exactly 1 to each. -/
theorem fold_increment_per_occurrence_witness :
    (dupCommit.files.count "a.rs" = 2 ∧
      (analyzeFold ([ciA] ++ [dupCommit]) "a.rs").revisions
          = (analyzeFold [ciA] "a.rs").revisions + 2 ∧
      commitCountFor (analyzeFold ([ciA] ++ [dupCommit]) "a.rs").author_commits
          dupCommit.author
        = commitCountFor (analyzeFold [ciA] "a.rs").author_commits
            dupCommit.author + 2) ∧
    (ciB.files.count "a.rs" = 1 ∧
      ((analyzeFold ([ciA] ++ [ciB]) "a.rs").revisions
          = (analyzeFold [ciA] "a.rs").revisions + 1 ∧
       commitCountFor (analyzeFold ([ciA] ++ [ciB]) "a.rs").author_commits ciB.author
          = commitCountFor (analyzeFold [ciA] "a.rs").author_commits ciB.author + 1)) := by
  refine ⟨⟨by decide, ?_, ?_⟩,
    by decide, (fold_increment_per_occurrence [ciA] ciB "a.rs").2.2 (by decide)⟩
  · have h := (fold_increment_per_occurrence [ciA] dupCommit "a.rs").1
    rwa [(by decide : dupCommit.files.count "a.rs" = 2)] at h
  · have h := (fold_increment_per_occurrence [ciA] dupCommit "a.rs").2.1
    rwa [(by decide : dupCommit.files.count "a.rs" = 2)] at h

/-! ## C9 -/

lemma length_le_sum (l : List (String × Nat)) (h : ∀ e ∈ l, 0 < e.2) :
    l.length ≤ (l.map Prod.snd).sum := by
  induction l with
  | nil => exact Nat.le_refl 0
  | cons e es ih =>
      have he : 0 < e.2 := h e (List.mem_cons_self e es)
      have hes := ih (fun x hx => h x (List.mem_cons_of_mem e hx))
      simp only [List.length_cons, List.map_cons, List.sum_cons]
      omega

/-- Claim C9: after any fold, each path's revision count equals the sum of
its per-author counters (the `totalCommits` later used by `into_metrics`),
the author set equals the key set of the per-author map, and consequently
every produced `FileMetrics` has `author_count ≤ revisions`. -/
theorem fold_stats_invariants (records : List CommitInfo) (p path : String) :
    (analyzeFold records p).revisions = (analyzeFold records p).totalCommits ∧
    (analyzeFold records p).authors
        = ((analyzeFold records p).author_commits.map Prod.fst).toFinset ∧
    ((analyzeFold records p).into_metrics path).author_count
        ≤ ((analyzeFold records p).into_metrics path).revisions := by
  obtain ⟨hnd, hauth, hpos, hrev⟩ := wf_analyzeFold records p
  refine ⟨hrev, hauth, ?_⟩
  show (analyzeFold records p).authors.card ≤ (analyzeFold records p).revisions
  rw [hauth, hrev, List.toFinset_card_of_nodup hnd, List.length_map]
  exact length_le_sum _ hpos

/-! ## C10 -/

lemma shape_default (a : String) : soleAuthorShape a FileStats.default :=
  ⟨Finset.empty_subset _, rfl⟩

lemma shape_applyCommit (a : String) (s : FileStats)
    (h : soleAuthorShape a s) : soleAuthorShape a (s.applyCommit a) := by
  obtain ⟨hsub, hcomm⟩ := h
  constructor
  · show insert a s.authors ⊆ {a}
    exact Finset.insert_subset_iff.mpr ⟨Finset.mem_singleton_self a, hsub⟩
  · show bumpAuthor s.author_commits a
        = (if s.revisions + 1 = 0 then [] else [(a, s.revisions + 1)])
    rw [if_neg (Nat.succ_ne_zero _)]
    cases hr : s.revisions with
    | zero =>
        rw [hr] at hcomm
        simp only [if_pos] at hcomm
        rw [hcomm]
        rfl
    | succ n =>
        rw [hr] at hcomm
        simp only [Nat.succ_ne_zero, if_neg] at hcomm
        rw [hcomm]
        simp [bumpAuthor]

lemma shape_iterate (a : String) (n : Nat) (s : FileStats)
    (h : soleAuthorShape a s) :
    soleAuthorShape a ((fun st => st.applyCommit a)^[n] s) := by
  induction n with
  | zero => exact h
  | succ n ih => rw [Function.iterate_succ_apply']; exact shape_applyCommit a _ ih

lemma shape_foldl (a : String) (p : String) :
    ∀ (l : List CommitInfo), (∀ r ∈ l, r.author = a) →
      ∀ s : FileStats, soleAuthorShape a s →
        soleAuthorShape a (l.foldl (perStep p) s) := by
  intro l
  induction l with
  | nil => exact fun _ s h => h
  | cons r rs ih =>
      intro hall s h
      rw [List.foldl_cons]
      refine ih (fun x hx => hall x (List.mem_cons_of_mem r hx)) _ ?_
      have hra : r.author = a := hall r (List.mem_cons_self r rs)
      unfold perStep
      rw [hra]
      exact shape_iterate a _ s h

/-- Claim C10: a commit with no available author display name is recorded
under the sentinel `"unknown"`, and all such commits coalesce: after folding
records all authored `"unknown"`, each touched path has at most the one
distinct author `"unknown"` and a single per-author counter holding its
whole revision count. -/
theorem unknown_author_coalesces :
    (∀ (g : GitRepository) (since : Int) (c : RawCommit) (ci : CommitInfo),
        c.author_name = none → g.processCommit since c = .ok (some ci) →
        ci.author = "unknown") ∧
    (∀ (records : List CommitInfo) (p : String),
        (∀ r ∈ records, r.author = "unknown") →
        (analyzeFold records p).authors ⊆ {"unknown"} ∧
        (analyzeFold records p).author_commits
            = (if (analyzeFold records p).revisions = 0 then []
               else [("unknown", (analyzeFold records p).revisions)])) := by
  constructor
  · intro g since c ci hname hpc
    unfold GitRepository.processCommit at hpc
    cases hts : fromTimestamp c.time with
    | none => rw [hts] at hpc; exact Except.noConfusion hpc
    | some t =>
        simp only [hts] at hpc
        by_cases hlt : t < since
        · rw [if_pos hlt] at hpc
          simp at hpc
        · rw [if_neg hlt] at hpc
          unfold GitRepository.processCommitAfterCutoff at hpc
          by_cases hm : (g.include_merge_commits = false ∧ 1 < c.parent_count)
          · rw [if_pos hm] at hpc
            simp at hpc
          · rw [if_neg hm] at hpc
            cases hch : g.get_changed_files c with
            | error e => simp only [hch] at hpc; exact Except.noConfusion hpc
            | ok changed =>
                simp only [hch] at hpc
                by_cases hemp :
                    (changed.filter (fun f => g.should_include_file f)).isEmpty = true
                · rw [if_pos hemp] at hpc
                  simp at hpc
                · rw [if_neg hemp] at hpc
                  simp only [Except.ok.injEq, Option.some.injEq] at hpc
                  rw [← hpc, hname]
                  rfl
  · intro records p hall
    have hsh : soleAuthorShape "unknown" (analyzeFold records p) := by
      rw [analyzeFold_apply]
      exact shape_foldl "unknown" p records hall _ (shape_default _)
    exact hsh

/-- Witness for C10: an authorless commit yields the record author
`"unknown"`, and two `"unknown"` records on `f.rs` coalesce into the single
counter entry. -/
theorem unknown_author_coalesces_witness :
    (cNoAuthor.author_name = none ∧
      repoEmpty.processCommit 0 cNoAuthor
          = .ok (some { author := "unknown", files := ["f.rs"] }) ∧
      ({ author := "unknown", files := ["f.rs"] } : CommitInfo).author
          = "unknown") ∧
    ((∀ r ∈ [ciU1, ciU2], r.author = "unknown") ∧
      ((analyzeFold [ciU1, ciU2] "f.rs").authors ⊆ {"unknown"} ∧
       (analyzeFold [ciU1, ciU2] "f.rs").author_commits
           = (if (analyzeFold [ciU1, ciU2] "f.rs").revisions = 0 then []
              else [("unknown", (analyzeFold [ciU1, ciU2] "f.rs").revisions)]))) :=
  ⟨⟨rfl, by decide,
    unknown_author_coalesces.1 repoEmpty 0 cNoAuthor _ rfl (by decide)⟩,
   ⟨by decide, unknown_author_coalesces.2 [ciU1, ciU2] "f.rs" (by decide)⟩⟩

/-! ## C8 -/

lemma statsEquiv_refl (s : FileStats) : StatsEquiv s s :=
  ⟨rfl, rfl, List.Perm.refl _⟩

lemma statsEquiv_trans {s t u : FileStats} (h1 : StatsEquiv s t)
    (h2 : StatsEquiv t u) : StatsEquiv s u :=
  ⟨h1.1.trans h2.1, h1.2.1.trans h2.2.1, h1.2.2.trans h2.2.2⟩

lemma perm_any (l l' : List (String × Nat)) (h : l.Perm l')
    (f : String × Nat → Bool) : l.any f = l'.any f := by
  induction h with
  | nil => rfl
  | cons x _ ih => simp [List.any_cons, ih]
  | swap x y l =>
      simp only [List.any_cons]
      cases f x <;> cases f y <;> simp
  | trans _ _ ih₁ ih₂ => exact ih₁.trans ih₂

lemma bumpAuthor_perm {l l' : List (String × Nat)} (h : l.Perm l')
    (a : String) : (bumpAuthor l a).Perm (bumpAuthor l' a) := by
  have hany := perm_any l l' h (fun e => e.1 == a)
  unfold bumpAuthor
  by_cases hc : l'.any (fun e => e.1 == a) = true
  · rw [hany, if_pos hc, if_pos hc]
    exact h.map _
  · rw [hany, if_neg hc, if_neg hc]
    exact h.append_right _

lemma applyCommit_equiv (a : String) {s t : FileStats} (h : StatsEquiv s t) :
    StatsEquiv (s.applyCommit a) (t.applyCommit a) := by
  refine ⟨?_, ?_, bumpAuthor_perm h.2.2 a⟩
  · show s.revisions + 1 = t.revisions + 1
    rw [h.1]
  · show insert a s.authors = insert a t.authors
    rw [h.2.1]

lemma any_key_bump_map (l : List (String × Nat)) (a b : String) :
    (l.map (fun e => if e.1 == a then (e.1, e.2 + 1) else e)).any
        (fun e => e.1 == b)
      = l.any (fun e => e.1 == b) := by
  induction l with
  | nil => rfl
  | cons e es ih =>
      simp only [List.map_cons, List.any_cons, ih]
      congr 1
      by_cases h : (e.1 == a) = true
      · rw [if_pos h]
      · rw [if_neg h]

lemma bump_present (l : List (String × Nat)) (a : String)
    (h : l.any (fun e => e.1 == a) = true) :
    bumpAuthor l a = l.map (fun e => if e.1 == a then (e.1, e.2 + 1) else e) := by
  rw [bumpAuthor, if_pos h]

lemma bump_absent (l : List (String × Nat)) (a : String)
    (h : ¬ l.any (fun e => e.1 == a) = true) :
    bumpAuthor l a = l ++ [(a, 1)] := by
  rw [bumpAuthor, if_neg h]

lemma bool_eq_false {x : Bool} (h : ¬ x = true) : x = false := by
  cases x
  · rfl
  · exact absurd rfl h

lemma bump_comm_aux (l : List (String × Nat)) (a b : String) (hab : a ≠ b)
    (ha : l.any (fun e => e.1 == a) = true)
    (hb : ¬ l.any (fun e => e.1 == b) = true) :
    bumpAuthor (bumpAuthor l a) b = bumpAuthor (bumpAuthor l b) a := by
  rw [bump_present l a ha, bump_absent l b hb]
  rw [bump_absent _ b (by rw [any_key_bump_map]; exact hb)]
  rw [bump_present _ a (by
    rw [List.any_append]
    simp [List.any_cons, ha])]
  rw [List.map_append]
  congr 1
  simp only [List.map_cons, List.map_nil]
  rw [if_neg (show ¬ ((b == a) = true) by simpa using fun h => hab h.symm)]

lemma bumpAuthor_comm (l : List (String × Nat)) (a b : String) :
    (bumpAuthor (bumpAuthor l a) b).Perm (bumpAuthor (bumpAuthor l b) a) := by
  by_cases hab : a = b
  · subst hab; exact List.Perm.refl _
  by_cases ha : l.any (fun e => e.1 == a) = true
  · by_cases hb : l.any (fun e => e.1 == b) = true
    · rw [bump_present l a ha, bump_present l b hb,
        bump_present _ b (by rw [any_key_bump_map]; exact hb),
        bump_present _ a (by rw [any_key_bump_map]; exact ha),
        List.map_map, List.map_map]
      have hfg : ∀ e ∈ l,
          ((fun e => if e.1 == b then (e.1, e.2 + 1) else e) ∘
            (fun e => if e.1 == a then (e.1, e.2 + 1) else e)) e
            = ((fun e => if e.1 == a then (e.1, e.2 + 1) else e) ∘
               (fun e => if e.1 == b then (e.1, e.2 + 1) else e)) e := by
        intro e _
        simp only [Function.comp_apply]
        by_cases hea : e.1 = a <;> by_cases heb : e.1 = b
        · exact absurd (hea.symm.trans heb) hab
        · simp [beq_iff_eq, hea, hab]
        · simp [beq_iff_eq, heb, Ne.symm hab]
        · simp [beq_iff_eq, hea, heb]
      rw [List.map_congr_left hfg]
    · rw [bump_comm_aux l a b hab ha hb]
  · by_cases hb : l.any (fun e => e.1 == b) = true
    · rw [← bump_comm_aux l b a (fun h => hab h.symm) hb ha]
    · rw [bump_absent l a ha, bump_absent l b hb]
      have ha' := bool_eq_false ha
      have hb' := bool_eq_false hb
      rw [bump_absent _ b (by
        simp [List.any_append, List.any_cons, hb', beq_iff_eq, hab])]
      rw [bump_absent _ a (by
        simp [List.any_append, List.any_cons, ha', beq_iff_eq, Ne.symm hab])]
      rw [List.append_assoc, List.append_assoc]
      exact List.Perm.append_left l (List.Perm.swap _ _ _)

lemma applyCommit_comm (s : FileStats) (a b : String) :
    StatsEquiv ((s.applyCommit a).applyCommit b) ((s.applyCommit b).applyCommit a) :=
  ⟨rfl, Finset.Insert.comm b a s.authors, bumpAuthor_comm s.author_commits a b⟩

lemma iterate_equiv (a : String) (n : Nat) {s t : FileStats}
    (h : StatsEquiv s t) :
    StatsEquiv ((fun st => st.applyCommit a)^[n] s)
      ((fun st => st.applyCommit a)^[n] t) := by
  induction n with
  | zero => exact h
  | succ n ih =>
      rw [Function.iterate_succ_apply', Function.iterate_succ_apply']
      exact applyCommit_equiv a ih

lemma apply_iterate_comm (a b : String) (n : Nat) (s : FileStats) :
    StatsEquiv (((fun st => st.applyCommit b)^[n] s).applyCommit a)
      ((fun st => st.applyCommit b)^[n] (s.applyCommit a)) := by
  induction n with
  | zero => exact statsEquiv_refl _
  | succ n ih =>
      rw [Function.iterate_succ_apply', Function.iterate_succ_apply']
      exact statsEquiv_trans (applyCommit_comm _ b a) (applyCommit_equiv b ih)

lemma iterate_iterate_comm (a b : String) (m n : Nat) (s : FileStats) :
    StatsEquiv ((fun st => st.applyCommit a)^[m] ((fun st => st.applyCommit b)^[n] s))
      ((fun st => st.applyCommit b)^[n] ((fun st => st.applyCommit a)^[m] s)) := by
  induction m with
  | zero => exact statsEquiv_refl _
  | succ m ih =>
      rw [Function.iterate_succ_apply', Function.iterate_succ_apply']
      exact statsEquiv_trans (applyCommit_equiv a ih) (apply_iterate_comm a b n _)

lemma perStep_equiv (p : String) (c : CommitInfo) {s t : FileStats}
    (h : StatsEquiv s t) : StatsEquiv (perStep p s c) (perStep p t c) :=
  iterate_equiv c.author _ h

lemma perStep_comm (p : String) (c₁ c₂ : CommitInfo) (s : FileStats) :
    StatsEquiv (perStep p (perStep p s c₁) c₂) (perStep p (perStep p s c₂) c₁) :=
  iterate_iterate_comm c₂.author c₁.author _ _ s

lemma foldl_perStep_equiv (p : String) (l : List CommitInfo) {s t : FileStats}
    (h : StatsEquiv s t) :
    StatsEquiv (l.foldl (perStep p) s) (l.foldl (perStep p) t) := by
  induction l generalizing s t with
  | nil => exact h
  | cons c cs ih =>
      rw [List.foldl_cons, List.foldl_cons]
      exact ih (perStep_equiv p c h)

lemma foldl_perm_equiv (p : String) {l₁ l₂ : List CommitInfo}
    (h : l₁.Perm l₂) :
    ∀ s : FileStats,
      StatsEquiv (l₁.foldl (perStep p) s) (l₂.foldl (perStep p) s) := by
  induction h with
  | nil => exact fun s => statsEquiv_refl _
  | cons x _ ih =>
      intro s
      rw [List.foldl_cons, List.foldl_cons]
      exact ih _
  | swap x y l =>
      intro s
      simp only [List.foldl_cons]
      exact foldl_perStep_equiv p l (perStep_comm p y x s)
  | trans _ _ ih₁ ih₂ => exact fun s => statsEquiv_trans (ih₁ s) (ih₂ s)

lemma perm_foldr_max (l l' : List Nat) (h : l.Perm l') :
    l.foldr max 0 = l'.foldr max 0 := by
  induction h with
  | nil => rfl
  | cons x _ ih => simp only [List.foldr_cons, ih]
  | swap x y l => simp only [List.foldr_cons]; exact max_left_comm y x _
  | trans _ _ ih₁ ih₂ => exact ih₁.trans ih₂

lemma statsEquiv_into_metrics {s t : FileStats} (path : String)
    (h : StatsEquiv s t) : s.into_metrics path = t.into_metrics path := by
  obtain ⟨h1, h2, h3⟩ := h
  have htot : s.totalCommits = t.totalCommits :=
    List.Perm.sum_eq (h3.map Prod.snd)
  have hmax : s.maxAuthorCommits = t.maxAuthorCommits :=
    perm_foldr_max _ _ (h3.map Prod.snd)
  have hmcp : s.mainContributorPercentage = t.mainContributorPercentage := by
    unfold FileStats.mainContributorPercentage
    rw [htot, hmax]
  have hkd : s.knowledgeDistribution = t.knowledgeDistribution := by
    unfold FileStats.knowledgeDistribution
    rw [htot, hmcp]
  have hhs : s.hotspotScore = t.hotspotScore := by
    unfold FileStats.hotspotScore FileStats.complexityFactor
    rw [h1, h2, hkd]
  unfold FileStats.into_metrics
  rw [h1, h2, hmcp, hkd, hhs]

/-- Claim C8: folding any permutation of the commit records yields the same
metrics for every path — commit ordering does not affect the final
`FileMetrics` of any path. -/
theorem fold_perm_invariant (l₁ l₂ : List CommitInfo) (h : l₁.Perm l₂)
    (p : String) :
    (analyzeFold l₁ p).into_metrics p = (analyzeFold l₂ p).into_metrics p := by
  apply statsEquiv_into_metrics
  rw [analyzeFold_apply, analyzeFold_apply]
  exact foldl_perm_equiv p h FileStats.default

/-- Witness for C8 at a concrete two-record permutation. -/
theorem fold_perm_invariant_witness :
    ([ciA, ciB].Perm [ciB, ciA]) ∧
    (analyzeFold [ciA, ciB] "a.rs").into_metrics "a.rs"
        = (analyzeFold [ciB, ciA] "a.rs").into_metrics "a.rs" :=
  ⟨List.Perm.swap ciB ciA [],
   fold_perm_invariant [ciA, ciB] [ciB, ciA] (List.Perm.swap ciB ciA []) "a.rs"⟩

/-- Witness for C3: with no patterns at all, every path is included. -/
theorem should_include_file_spec_witness :
    repoEmpty.should_include_file "x.rs" = true :=
  (should_include_file_spec repoEmpty "x.rs").mpr
    ⟨fun p hp => absurd hp (List.not_mem_nil p), Or.inl rfl⟩

/-- Witness for the amended C5 at a concrete failure message. -/
theorem openRepo_error_variant_witness :
    GitRepository.openRepo (.error "could not resolve path") [] [] false
        = .error (.GitError "could not resolve path") :=
  (openRepo_error_variant "could not resolve path" 30 [] [] false).1

/-- Witness for C9 at a concrete fold. -/
theorem fold_stats_invariants_witness :
    (analyzeFold [ciA] "a.rs").revisions = (analyzeFold [ciA] "a.rs").totalCommits :=
  (fold_stats_invariants [ciA] "a.rs" "a.rs").1
